import Mathlib

/-!
Verification of the Inner-Product Functional Encryption implementation
(`src/FE.cpp`) against its natural-language specification.

The C++ program is shallowly embedded below.  GMP big integers (`mpz_t`)
holding nonnegative values are modelled as `Nat`; the extended-gcd
routine, whose intermediate coefficients can be negative, returns `Int`
values.  `mpz_powm b e m` is modelled by its contract `b ^ e % m`,
`mpz_mod` by `%` (both GMP's `mpz_mod` and Lean's `Int.emod` return a
nonnegative remainder for a positive modulus), and `mpz_fdiv_q` on
nonnegative arguments by `Nat` division.  Randomness (`mpz_urandomb`)
is passed in explicitly as a parameter wherever the program samples it.
-/

/-- `mpz_powm base exp mod`: modular exponentiation, result in `[0, mod)`. -/
def modexp (b e m : Nat) : Nat := b ^ e % m

/-- `ElGamal_Param` in `FE.cpp` hardcodes the prime modulus `p = 73`. -/
def ElGamal_Param_p : Nat := 73

/-- `ElGamal_Param` in `FE.cpp` hardcodes the generator `g = 15`. -/
def ElGamal_Param_g : Nat := 15

/-- `ElGamal_Client::gcdExtended(c0, p, &inv, &co_inv, &gcd)` from
`FE.cpp`: returns `(inv, co_inv, gcd)`.  Base case `c0 = 0` yields
`(0, 1, p)`; otherwise it recurses on `(p mod c0, c0)` obtaining
`(t1, t2, g)` and returns `(t2 - (p / c0) * t1, t1, g)`. -/
def gcdExtended (c0 p : Nat) : Int × Int × Int :=
  if h : c0 = 0 then (0, 1, (p : Int))
  else
    let res := gcdExtended (p % c0) c0
    (res.2.1 - ((p / c0 : Nat) : Int) * res.1, res.1, res.2.2)
termination_by c0
decreasing_by exact Nat.mod_lt _ (Nat.pos_of_ne_zero h)

/-- The modular-inverse computation performed inside
`ElGamal_Client::Decrypt`: run `gcdExtended a p` and reduce the first
output (`t1`) modulo `p` (the `mpz_mod(t1, t1, param.p)` line).  The
code uses the result unconditionally, whatever the gcd was. -/
def modinv (p a : Nat) : Nat := (((gcdExtended a p).1) % (p : Int)).toNat

/-- `cipher_text` from `FE.cpp`: an ElGamal ciphertext pair. -/
structure cipher_text where
  c0 : Nat
  c1 : Nat
deriving Repr, DecidableEq

/-- `ElGamal_Client`'s key material: private key `x`, public key `h`. -/
structure ElGamal_Client where
  x : Nat
  h : Nat
deriving Repr, DecidableEq

/-- The `ElGamal_Client` constructor with the `mpz_urandomb` output `xr`
made explicit: `x = xr mod p`, `h = g^x mod p`. -/
def mkClient (p g xr : Nat) : ElGamal_Client :=
  { x := xr % p, h := modexp g (xr % p) p }

/-- `ElGamal_Client::Get_Commitment` with the `mpz_urandomb` output
`rnd` made explicit: the commitment is `rnd mod p`. -/
def Get_Commitment (p rnd : Nat) : Nat := rnd % p

/-- `ElGamal_Client::Encrypt(msg, y, rcvr)` from `FE.cpp`:
`c0 = g^y mod p`, `c1 = (h^y mod p) * msg mod p` where `h` is the
receiver's public key and `y` the commitment randomness. -/
def ElGamal_Encrypt (p g msg rand h : Nat) : cipher_text :=
  { c0 := modexp g rand p, c1 := modexp h rand p * msg % p }

/-- `ElGamal_Client::Decrypt(c, key)` from `FE.cpp`:
`shared = c0^key mod p`, `t1 = gcdExtended(shared, p).inv mod p`,
result `= c1 * t1 mod p`.  No gcd check is performed. -/
def ElGamal_Decrypt (p : Nat) (c : cipher_text) (key : Nat) : Nat :=
  c.c1 * modinv p (modexp c.c0 key p) % p

/-- `cipher_text_FE` from `FE.cpp`: shared `c0` plus one `c1` per slot. -/
structure cipher_text_FE where
  c0 : Nat
  c1 : List Nat
deriving Repr, DecidableEq

/-- The mutable state of a `FE_inner_product_DDH` object: the `vec_len`
ElGamal clients created at setup, the stored vector `y` (written by
`Key_Derivation`, read by `Decrypt`), and the stored derived secret key
`sk.sk_y` (written by `Key_Derivation`). -/
structure FE_inner_product_DDH where
  clients : List ElGamal_Client
  y : List Nat
  sk : Nat
deriving Repr, DecidableEq

/-- The inner-product accumulation loop of `Key_Derivation`:
`Sum (a_i * b_i)` with no modular reduction. -/
def innerSum (a b : List Nat) : Nat := (List.zipWith (· * ·) a b).sum

/-- `FE_inner_product_DDH::Key_Derivation(vec)` from `FE.cpp` as a state
transformer: copies `vec` into the stored `y` and sets
`sk.sk_y = Sum (y_i * x_i)` over the clients' private keys.  Defined for
`vec` of the scheme's length (a shorter C++ array is out-of-bounds,
i.e. undefined behaviour, and is not modelled). -/
def Key_Derivation (s : FE_inner_product_DDH) (vec : List Nat) : FE_inner_product_DDH :=
  { s with y := vec, sk := innerSum vec (s.clients.map ElGamal_Client.x) }

/-- `FE_inner_product_DDH::Encrypt(msg)` from `FE.cpp`, with the
`mpz_urandomb` output `rnd` behind the single `Get_Commitment` call made
explicit.  `c0 = g^r mod p`; each message entry is encoded as
`g^(msg_i) mod p` (the `g_x` helper) and encrypted with the one shared
commitment `r` against client `i`'s public key; only the `c1` component
of each primitive ciphertext is kept. -/
def FE_Encrypt (p g : Nat) (clients : List ElGamal_Client) (rnd : Nat)
    (msg : List Nat) : cipher_text_FE :=
  let r := Get_Commitment p rnd
  { c0 := modexp g r p,
    c1 := List.zipWith
      (fun c m => (ElGamal_Encrypt p g (modexp g m p) r c.h).c1) clients msg }

/-- `FE_inner_product_DDH::Decrypt(ct, sk)` from `FE.cpp`: fold
`c1 := c1 * (ct.c1_i ^ y_i mod p) mod p` over the stored vector `y`
starting from `1`, then run the primitive `ElGamal_Decrypt` on the
synthetic pair `(ct.c0, c1)` with exponent key `sk`. -/
def FE_Decrypt (p : Nat) (s : FE_inner_product_DDH) (ct : cipher_text_FE)
    (sk : Nat) : Nat :=
  let c1 := (List.zipWith (fun ci yi => modexp ci yi p) ct.c1 s.y).foldl
    (fun a t => a * t % p) 1
  ElGamal_Decrypt p { c0 := ct.c0, c1 := c1 } sk

/-- `FE_inner_product_DDH::Decrypt(ct)`: decryption with the scheme's
own stored derived key. -/
def FE_Decrypt_own (p : Nat) (s : FE_inner_product_DDH) (ct : cipher_text_FE) : Nat :=
  FE_Decrypt p s ct s.sk

/-! ### Basic arithmetic lemmas -/

theorem modexp_lt {m : Nat} (b e : Nat) (hm : 0 < m) : modexp b e m < m :=
  Nat.mod_lt _ hm

theorem cast_modexp (p b e : Nat) : ((modexp b e p : Nat) : ZMod p) = (b : ZMod p) ^ e := by
  simp [modexp, ZMod.natCast_mod, Nat.cast_pow]

/-- Correctness of the source's extended Euclid: the outputs satisfy the
Bezout identity `c0 * inv + p * co_inv = gcd`, and the third output is
the mathematical gcd of the inputs. -/
theorem gcdExtended_spec (c0 p : Nat) :
    (c0 : Int) * (gcdExtended c0 p).1 + (p : Int) * (gcdExtended c0 p).2.1
      = (gcdExtended c0 p).2.2
    ∧ (gcdExtended c0 p).2.2 = (Nat.gcd c0 p : Int) := by
  induction c0 using Nat.strong_induction_on generalizing p with
  | _ c0 ih =>
    rw [gcdExtended]
    by_cases h : c0 = 0
    · subst h; simp
    · simp only [dif_neg h]
      have hlt : p % c0 < c0 := Nat.mod_lt _ (Nat.pos_of_ne_zero h)
      obtain ⟨hbez, hgcd⟩ := ih (p % c0) hlt c0
      constructor
      · have hdm : (c0 : Int) * ((p / c0 : Nat) : Int) + ((p % c0 : Nat) : Int) = (p : Int) := by
          exact_mod_cast Nat.div_add_mod p c0
        calc (c0 : Int) * ((gcdExtended (p % c0) c0).2.1
                - ((p / c0 : Nat) : Int) * (gcdExtended (p % c0) c0).1)
              + (p : Int) * (gcdExtended (p % c0) c0).1
            = ((p % c0 : Nat) : Int) * (gcdExtended (p % c0) c0).1
              + (c0 : Int) * (gcdExtended (p % c0) c0).2.1 := by
              rw [← hdm]; ring
          _ = (gcdExtended (p % c0) c0).2.2 := hbez
      · rw [hgcd, Nat.gcd_rec c0 p]

/-- The normalized inverse lies in `[0, p)` for positive `p`. -/
theorem modinv_lt {p : Nat} (a : Nat) (hp : 0 < p) : modinv p a < p := by
  have hpz : (p : Int) ≠ 0 := by exact_mod_cast Nat.pos_iff_ne_zero.mp hp
  have h0 : 0 ≤ (gcdExtended a p).1 % (p : Int) := Int.emod_nonneg _ hpz
  have h1 : (gcdExtended a p).1 % (p : Int) < (p : Int) :=
    Int.emod_lt_of_pos _ (by exact_mod_cast hp)
  exact (Int.toNat_lt h0).mpr h1

/-- When `gcd(a, p) = 1` the value the code computes really is the
modular inverse of `a`. -/
theorem modinv_correct {p a : Nat} (hp : 1 < p) (hg : Nat.gcd a p = 1) :
    a * modinv p a % p = 1 := by
  have hpz : (p : Int) ≠ 0 := by positivity
  obtain ⟨hbez, hgcd⟩ := gcdExtended_spec a p
  set i := (gcdExtended a p).1 with hi
  set c := (gcdExtended a p).2.1 with hc
  have hone : (a : Int) * i + (p : Int) * c = 1 := by
    rw [hbez, hgcd, hg]; norm_num
  have htn : ((modinv p a : Nat) : Int) = i % (p : Int) := by
    simp only [modinv, ← hi]
    exact Int.toNat_of_nonneg (Int.emod_nonneg _ hpz)
  have : ((a * modinv p a % p : Nat) : Int) = 1 := by
    push_cast [htn]
    rw [Int.mul_emod, Int.emod_emod_of_dvd _ dvd_rfl, ← Int.mul_emod]
    have hai : (a : Int) * i = 1 + (p : Int) * (-c) := by
      rw [← hone]; ring
    rw [hai, Int.add_mul_emod_self_left]
    exact Int.emod_eq_of_lt (by norm_num) (by exact_mod_cast hp)
  exact_mod_cast this

theorem cast_modinv_mul {p : Nat} (hp : 1 < p) {a : Nat} (hg : Nat.gcd a p = 1) :
    (a : ZMod p) * ((modinv p a : Nat) : ZMod p) = 1 := by
  have h := modinv_correct hp hg
  calc (a : ZMod p) * ((modinv p a : Nat) : ZMod p)
      = ((a * modinv p a : Nat) : ZMod p) := by push_cast; ring
    _ = ((a * modinv p a % p : Nat) : ZMod p) := (ZMod.natCast_mod _ p).symm
    _ = 1 := by rw [h]; norm_num

theorem cast_foldl_mul_mod (p : Nat) (l : List Nat) (init : Nat) :
    ((l.foldl (fun a t => a * t % p) init : Nat) : ZMod p)
      = (init : ZMod p) * (l.map (Nat.cast : Nat → ZMod p)).prod := by
  induction l generalizing init with
  | nil => simp
  | cons b t ih =>
    simp only [List.foldl_cons, List.map_cons, List.prod_cons]
    rw [ih, ZMod.natCast_mod]
    push_cast
    ring

theorem innerSum_nil (b : List Nat) : innerSum [] b = 0 := by
  simp [innerSum]

theorem innerSum_cons (a b : Nat) (as bs : List Nat) :
    innerSum (a :: as) (b :: bs) = a * b + innerSum as bs := by
  simp [innerSum]

/-- The homomorphic aggregation step of FE decryption, viewed in
`ZMod p`: the product of the `y_i`-th powers of the ciphertext
components equals `g ^ (r * Σ y_i x_i + Σ m_i y_i)`. -/
theorem agg_cast (p g r : Nat) (cl : List ElGamal_Client) :
    ∀ (ms ys : List Nat), cl.length = ms.length → ms.length = ys.length →
      (∀ c ∈ cl, c.h = modexp g c.x p) →
      ((List.zipWith (fun ci yi => modexp ci yi p)
          (List.zipWith (fun c m => (ElGamal_Encrypt p g (modexp g m p) r c.h).c1) cl ms)
          ys).map (Nat.cast : Nat → ZMod p)).prod
        = (g : ZMod p) ^ (r * innerSum ys (cl.map ElGamal_Client.x) + innerSum ms ys) := by
  induction cl with
  | nil =>
    intro ms ys h1 _ _
    have : ms = [] := List.eq_nil_of_length_eq_zero h1.symm
    subst this
    simp [innerSum]
  | cons c cl ih =>
    intro ms ys h1 h2 hh
    cases ms with
    | nil => simp at h1
    | cons m ms =>
      cases ys with
      | nil => simp at h2
      | cons yv ys =>
        have hc : c.h = modexp g c.x p := hh c (List.mem_cons_self c cl)
        have hhead :
            ((modexp ((ElGamal_Encrypt p g (modexp g m p) r c.h).c1) yv p : Nat) : ZMod p)
              = (g : ZMod p) ^ (r * (yv * c.x) + m * yv) := by
          show ((modexp (modexp c.h r p * modexp g m p % p) yv p : Nat) : ZMod p) = _
          rw [cast_modexp, ZMod.natCast_mod]
          push_cast
          rw [cast_modexp, cast_modexp, hc, cast_modexp, ← pow_mul, ← pow_add, ← pow_mul]
          have he : (c.x * r + m) * yv = r * (yv * c.x) + m * yv := by ring
          rw [he]
        simp only [List.zipWith_cons_cons, List.map_cons, List.prod_cons]
        rw [ih ms ys (by simpa using h1) (by simpa using h2)
          (fun d hd => hh d (List.mem_cons_of_mem _ hd)), hhead,
          innerSum_cons, innerSum_cons, ← pow_add]
        have he2 : r * (yv * c.x) + m * yv + (r * innerSum ys (cl.map ElGamal_Client.x)
              + innerSum ms ys)
            = r * (yv * c.x + innerSum ys (cl.map ElGamal_Client.x))
              + (m * yv + innerSum ms ys) := by ring
        rw [he2]

theorem nat_eq_of_cast_lt {p a b : Nat} (ha : a < p) (hb : b < p)
    (h : (a : ZMod p) = (b : ZMod p)) : a = b := by
  have h1 := ZMod.val_cast_of_lt ha
  have h2 := ZMod.val_cast_of_lt hb
  rw [← h1, ← h2, h]

/-- Core correctness of the IPFE pipeline as the source computes it:
with honestly generated clients (`h_i = g^(x_i) mod p`), a prime `p`
and `g` not divisible by `p`, decrypting an encryption of `ms` after
deriving a key for `ys` yields `g ^ (Σ m_i y_i) mod p`, the exponent
being the exact integer inner product (no reduction). -/
theorem FE_correct {p g : Nat} (hp : p.Prime) (hg : g % p ≠ 0)
    (s : FE_inner_product_DDH) (ys ms : List Nat) (rnd : Nat)
    (hlen1 : s.clients.length = ms.length) (hlen2 : ms.length = ys.length)
    (hcl : ∀ c ∈ s.clients, c.h = modexp g c.x p) :
    FE_Decrypt p (Key_Derivation s ys) (FE_Encrypt p g s.clients rnd ms)
        (Key_Derivation s ys).sk
      = modexp g (innerSum ms ys) p := by
  haveI : Fact p.Prime := ⟨hp⟩
  have hp1 : 1 < p := hp.one_lt
  have hp0 : 0 < p := hp.pos
  set r := Get_Commitment p rnd with hr
  set sk := innerSum ys (s.clients.map ElGamal_Client.x) with hsk
  have hgz : (g : ZMod p) ≠ 0 := by
    intro h0
    exact hg (Nat.mod_eq_zero_of_dvd ((ZMod.natCast_zmod_eq_zero_iff_dvd g p).mp h0))
  -- the aggregated ciphertext component, before the primitive decryption
  set A := (List.zipWith (fun ci yi => modexp ci yi p)
      (List.zipWith (fun c m => (ElGamal_Encrypt p g (modexp g m p) r c.h).c1) s.clients ms)
      ys).foldl (fun a t => a * t % p) 1 with hA
  have hstep : FE_Decrypt p (Key_Derivation s ys) (FE_Encrypt p g s.clients rnd ms)
      (Key_Derivation s ys).sk
      = A * modinv p (modexp (modexp g r p) sk p) % p := rfl
  rw [hstep]
  set Sh := modexp (modexp g r p) sk p with hSh
  have hShcast : ((Sh : Nat) : ZMod p) = (g : ZMod p) ^ (r * sk) := by
    rw [hSh, cast_modexp, cast_modexp, ← pow_mul]
  have hShz : ((Sh : Nat) : ZMod p) ≠ 0 := by
    rw [hShcast]
    exact pow_ne_zero _ hgz
  have hShgcd : Nat.gcd Sh p = 1 := by
    rw [Nat.gcd_comm]
    refine (Nat.Prime.coprime_iff_not_dvd hp).mpr fun hdvd => ?_
    exact hShz ((ZMod.natCast_zmod_eq_zero_iff_dvd Sh p).mpr hdvd)
  have hinv : ((Sh : Nat) : ZMod p) * ((modinv p Sh : Nat) : ZMod p) = 1 :=
    cast_modinv_mul hp1 hShgcd
  have hAcast : ((A : Nat) : ZMod p) = (g : ZMod p) ^ (r * sk + innerSum ms ys) := by
    rw [hA, cast_foldl_mul_mod, agg_cast p g r s.clients ms ys hlen1 hlen2 hcl]
    simp
  refine nat_eq_of_cast_lt (Nat.mod_lt _ hp0) (modexp_lt _ _ hp0) ?_
  rw [ZMod.natCast_mod, Nat.cast_mul, hAcast, cast_modexp, pow_add,
    mul_comm ((g : ZMod p) ^ (r * sk)) ((g : ZMod p) ^ innerSum ms ys),
    mul_assoc, ← hShcast, hinv, mul_one]

/-! ### Computational twin of the extended gcd

`gcdExtended` is defined by well-founded recursion and therefore does
not reduce inside `decide`/`rfl`; `gcdExtendedFuel` is a structurally
recursive twin used purely to evaluate it on concrete inputs, justified
by `gcdExtended_eq_fuel`. -/

def gcdExtendedFuel : Nat → Nat → Nat → Int × Int × Int
  | 0, _, p => (0, 1, (p : Int))
  | fuel + 1, c0, p =>
    if c0 = 0 then (0, 1, (p : Int))
    else
      let res := gcdExtendedFuel fuel (p % c0) c0
      (res.2.1 - ((p / c0 : Nat) : Int) * res.1, res.1, res.2.2)

theorem gcdExtended_eq_fuel : ∀ (fuel c0 p : Nat), c0 < fuel →
    gcdExtended c0 p = gcdExtendedFuel fuel c0 p := by
  intro fuel
  induction fuel with
  | zero => intro c0 p h; omega
  | succ n ih =>
    intro c0 p h
    rw [gcdExtended]
    by_cases h0 : c0 = 0
    · subst h0; simp [gcdExtendedFuel]
    · have hc : 0 < c0 := Nat.pos_of_ne_zero h0
      have hlt : p % c0 < n := lt_of_lt_of_le (Nat.mod_lt _ hc) (Nat.lt_succ_iff.mp h)
      simp only [gcdExtendedFuel, if_neg h0, dif_neg h0]
      rw [ih (p % c0) c0 hlt]

theorem modinv_eval (p a : Nat) :
    modinv p a = (((gcdExtendedFuel (a + 1) a p).1) % (p : Int)).toNat := by
  rw [modinv, gcdExtended_eq_fuel (a + 1) a p (Nat.lt_succ_self a)]

/-! ### Claims -/

/-- Claim C10: for every nonnegative `c0` and positive `p`, `gcdExtended`
terminates (it is a total Lean function) and its outputs satisfy the
Bezout identity `c0 * inv + p * co_inv = gcd` with `gcd` the greatest
common divisor of `c0` and `p`; on `c0 = 0` it returns
`inv = 0, co_inv = 1, gcd = p`. -/
theorem claim_C10 (c0 p : Nat) (hp : 0 < p) :
    (c0 : Int) * (gcdExtended c0 p).1 + (p : Int) * (gcdExtended c0 p).2.1
        = (gcdExtended c0 p).2.2
    ∧ (gcdExtended c0 p).2.2 = (Nat.gcd c0 p : Int)
    ∧ (c0 = 0 → gcdExtended c0 p = (0, 1, (p : Int))) := by
  refine ⟨(gcdExtended_spec c0 p).1, (gcdExtended_spec c0 p).2, ?_⟩
  intro h
  subst h
  rw [gcdExtended_eq_fuel 1 0 p (by omega)]
  rfl

/-- Witness for C10 at `c0 = 0`, `p = 5`. -/
theorem claim_C10_witness :
    0 < 5
    ∧ ((0 : Nat) : Int) * (gcdExtended 0 5).1 + ((5 : Nat) : Int) * (gcdExtended 0 5).2.1
        = (gcdExtended 0 5).2.2
    ∧ (gcdExtended 0 5).2.2 = (Nat.gcd 0 5 : Int)
    ∧ ((0 : Nat) = 0 → gcdExtended 0 5 = (0, 1, ((5 : Nat) : Int))) :=
  ⟨by decide, claim_C10 0 5 (by decide)⟩

/-- Claim C4 counterexample: at `a = 2`, `modulus = 4` the gcd is `2 ≠ 1`,
yet the code's modular-inverse computation does not fail: it returns the
computed value `1`, which is not an inverse of `2` modulo `4`.  (No
`NonInvertibleElement` condition exists anywhere in the program.) -/
theorem claim_C4_counterexample :
    Nat.gcd 2 4 ≠ 1 ∧ modinv 4 2 = 1 ∧ 2 * modinv 4 2 % 4 ≠ 1 := by
  simp only [modinv_eval]
  decide

/-- Claim C4 amended: for `modulus > 1` the computation returns a value
in `[0, modulus)`, and that value is a modular inverse of `a` precisely
when `gcd(a, modulus) = 1`; on non-invertible input it does not fail but
silently returns a non-inverse value. -/
theorem claim_C4_amended {a m : Nat} (hm : 1 < m) :
    modinv m a < m ∧ (a * modinv m a % m = 1 ↔ Nat.gcd a m = 1) := by
  refine ⟨modinv_lt a (by omega), ?_, ?_⟩
  · intro h
    have hd1 : Nat.gcd a m ∣ a * modinv m a := (Nat.gcd_dvd_left a m).mul_right _
    have hq : Nat.gcd a m ∣ m * (a * modinv m a / m) := (Nat.gcd_dvd_right a m).mul_right _
    have hdm := Nat.div_add_mod (a * modinv m a) m
    have hsub : a * modinv m a - m * (a * modinv m a / m) = 1 := by omega
    exact Nat.dvd_one.mp (hsub ▸ Nat.dvd_sub' hd1 hq)
  · intro h
    exact modinv_correct hm h

/-- Witness for the amended C4 at `a = 2`, `m = 5`. -/
theorem claim_C4_witness :
    1 < 5 ∧ (modinv 5 2 < 5 ∧ (2 * modinv 5 2 % 5 = 1 ↔ Nat.gcd 2 5 = 1)) :=
  ⟨by decide, claim_C4_amended (by decide)⟩

/-- Claim C7: for a prime modulus `p` and a nonzero ciphertext component
`c0 < p`, the shared value `modexp c0 key p` computed in the primitive
decryption is coprime to `p` — both as the mathematical gcd and as the
gcd output of the code's own `gcdExtended` — so a non-invertibility
condition could never fire there. -/
theorem claim_C7 {p c0 : Nat} (key : Nat) (hp : p.Prime) (h0 : 0 < c0) (hlt : c0 < p) :
    Nat.gcd (modexp c0 key p) p = 1
    ∧ (gcdExtended (modexp c0 key p) p).2.2 = 1
    ∧ modexp c0 key p ≠ 0 := by
  have hnd : ¬ p ∣ c0 := fun hd => absurd (Nat.le_of_dvd h0 hd) (not_le.mpr hlt)
  have hnd2 : ¬ p ∣ c0 ^ key := fun hd => hnd (hp.dvd_of_dvd_pow hd)
  have h1 : Nat.gcd (modexp c0 key p) p = 1 := by
    rw [modexp, ← Nat.gcd_rec]
    exact (Nat.Prime.coprime_iff_not_dvd hp).mpr hnd2
  refine ⟨h1, ?_, ?_⟩
  · have h2 := (gcdExtended_spec (modexp c0 key p) p).2
    rw [h1] at h2
    exact_mod_cast h2
  · intro hz
    rw [modexp] at hz
    exact hnd2 (Nat.dvd_iff_mod_eq_zero.mpr hz)

/-- Witness for C7 at `p = 73`, `c0 = 15`, `key = 5`. -/
theorem claim_C7_witness :
    Nat.Prime 73 ∧ 0 < 15 ∧ 15 < 73
    ∧ (Nat.gcd (modexp 15 5 73) 73 = 1
       ∧ (gcdExtended (modexp 15 5 73) 73).2.2 = 1
       ∧ modexp 15 5 73 ≠ 0) :=
  ⟨by decide, by decide, by decide, claim_C7 5 (by decide) (by decide) (by decide)⟩

/-- Claim C3: primitive round trip.  For a prime `p`, a generator `g`
that is a nonzero group element, any private scalar `x` with public key
`h = g^x mod p`, any randomness `r` and any nonzero group element
`m < p`, `Decrypt(Encrypt(m, r, h), x) = m` exactly. -/
theorem claim_C3 {p g x r m : Nat} (hp : p.Prime) (hg : g % p ≠ 0)
    (hm : m < p) (hm0 : m ≠ 0) :
    ElGamal_Decrypt p (ElGamal_Encrypt p g m r (modexp g x p)) x = m := by
  haveI : Fact p.Prime := ⟨hp⟩
  have hp0 : 0 < p := hp.pos
  have hgz : (g : ZMod p) ≠ 0 := fun h0 =>
    hg (Nat.mod_eq_zero_of_dvd ((ZMod.natCast_zmod_eq_zero_iff_dvd g p).mp h0))
  set Sh := modexp (modexp g r p) x p with hSh
  have hShcast : ((Sh : Nat) : ZMod p) = (g : ZMod p) ^ (x * r) := by
    rw [hSh, cast_modexp, cast_modexp, ← pow_mul, mul_comm r x]
  have hShz : ((Sh : Nat) : ZMod p) ≠ 0 := by
    rw [hShcast]
    exact pow_ne_zero _ hgz
  have hShgcd : Nat.gcd Sh p = 1 := by
    rw [Nat.gcd_comm]
    refine (Nat.Prime.coprime_iff_not_dvd hp).mpr fun hdvd => ?_
    exact hShz ((ZMod.natCast_zmod_eq_zero_iff_dvd Sh p).mpr hdvd)
  have hinv : ((Sh : Nat) : ZMod p) * ((modinv p Sh : Nat) : ZMod p) = 1 :=
    cast_modinv_mul hp.one_lt hShgcd
  have hstep : ElGamal_Decrypt p (ElGamal_Encrypt p g m r (modexp g x p)) x
      = (modexp (modexp g x p) r p * m % p) * modinv p Sh % p := rfl
  rw [hstep]
  refine nat_eq_of_cast_lt (Nat.mod_lt _ hp0) hm ?_
  rw [ZMod.natCast_mod, Nat.cast_mul, ZMod.natCast_mod, Nat.cast_mul,
    cast_modexp, cast_modexp, ← pow_mul]
  rw [mul_comm ((g : ZMod p) ^ (x * r)) (m : ZMod p), mul_assoc, ← hShcast, hinv, mul_one]

/-- Witness for C3 at `p = 73`, `g = 15`, `x = 3`, `r = 2`, `m = 20`. -/
theorem claim_C3_witness :
    Nat.Prime 73 ∧ 15 % 73 ≠ 0 ∧ 20 < 73 ∧ (20 : Nat) ≠ 0
    ∧ ElGamal_Decrypt 73 (ElGamal_Encrypt 73 15 20 2 (modexp 15 3 73)) 3 = 20 :=
  ⟨by decide, by decide, by decide, by decide,
    claim_C3 (by decide) (by decide) (by decide) (by decide)⟩

/-- Claim C1 counterexample: with `p = 73`, `g = 15`, `l = 1`, private
key `0`, `x = [10]`, `y = [8]` (all entries in `[0, 73)`) and
encryption randomness `0`, the FE decryption yields
`15^80 mod 73 = 55`, not `modexp(15, (10*8) mod 73, 73) = 15^7 mod 73 = 28`:
the exponent is not reduced modulo `p`. -/
theorem claim_C1_counterexample :
    FE_Decrypt 73 (Key_Derivation ⟨[mkClient 73 15 0], [], 0⟩ [8])
        (FE_Encrypt 73 15 [mkClient 73 15 0] 0 [10])
        (Key_Derivation ⟨[mkClient 73 15 0], [], 0⟩ [8]).sk
      ≠ modexp 15 (innerSum [10] [8] % 73) 73 := by
  simp only [FE_Decrypt, FE_Encrypt, ElGamal_Decrypt, ElGamal_Encrypt, Key_Derivation,
    mkClient, Get_Commitment, innerSum, modexp, modinv_eval]
  decide

/-- Claim C1 amended: for every `l ≥ 1` and vectors `x, y` of length `l`
with entries in `[0, p)`, decrypting the FE encryption of `x` with the
key derived for `y` yields `modexp(g, Σ x_i·y_i, p)` where the exponent
is the exact integer inner product (not reduced modulo `p`). -/
theorem claim_C1_amended {p g : Nat} (hp : p.Prime) (hg : g % p ≠ 0)
    (s : FE_inner_product_DDH) (xs ys : List Nat) (rnd : Nat)
    (hl : 1 ≤ ys.length)
    (hlen1 : s.clients.length = xs.length) (hlen2 : xs.length = ys.length)
    (hxs : ∀ v ∈ xs, v < p) (hys : ∀ v ∈ ys, v < p)
    (hcl : ∀ c ∈ s.clients, c.h = modexp g c.x p) :
    FE_Decrypt p (Key_Derivation s ys) (FE_Encrypt p g s.clients rnd xs)
        (Key_Derivation s ys).sk
      = modexp g (innerSum xs ys) p :=
  FE_correct hp hg s ys xs rnd hlen1 hlen2 hcl

/-- Witness for the amended C1 at `p = 73`, `g = 15`, one client with
keygen randomness `4`, `x = [10]`, `y = [8]`, encryption randomness `2`. -/
theorem claim_C1_witness :
    Nat.Prime 73 ∧ 15 % 73 ≠ 0 ∧ 1 ≤ ([8] : List Nat).length
    ∧ ([mkClient 73 15 4] : List ElGamal_Client).length = ([10] : List Nat).length
    ∧ ([10] : List Nat).length = ([8] : List Nat).length
    ∧ (∀ v ∈ ([10] : List Nat), v < 73) ∧ (∀ v ∈ ([8] : List Nat), v < 73)
    ∧ (∀ c ∈ ([mkClient 73 15 4] : List ElGamal_Client), c.h = modexp 15 c.x 73)
    ∧ FE_Decrypt 73 (Key_Derivation ⟨[mkClient 73 15 4], [], 0⟩ [8])
        (FE_Encrypt 73 15 [mkClient 73 15 4] 2 [10])
        (Key_Derivation ⟨[mkClient 73 15 4], [], 0⟩ [8]).sk
      = modexp 15 (innerSum [10] [8]) 73 :=
  ⟨by decide, by decide, by decide, by decide, by decide, by decide, by decide, by decide,
    claim_C1_amended (by decide) (by decide) ⟨[mkClient 73 15 4], [], 0⟩ [10] [8] 2
      (by decide) (by decide) (by decide) (by decide) (by decide) (by decide)⟩

/-- Claim C9: in the concrete instance `p = 73`, `g = 15`, `l = 2`,
`x = [5, 7]`, `y = [2, 3]`, for every choice of key-generation
randomness (`k1`, `k2`) and encryption randomness (`rnd`), the FE
decryption of the encryption of `x` under the key derived for `y`
returns `modexp(15, 31, 73)`. -/
theorem claim_C9 (k1 k2 rnd : Nat) :
    FE_Decrypt ElGamal_Param_p
        (Key_Derivation
          ⟨[mkClient ElGamal_Param_p ElGamal_Param_g k1,
            mkClient ElGamal_Param_p ElGamal_Param_g k2], [], 0⟩ [2, 3])
        (FE_Encrypt ElGamal_Param_p ElGamal_Param_g
          [mkClient ElGamal_Param_p ElGamal_Param_g k1,
           mkClient ElGamal_Param_p ElGamal_Param_g k2] rnd [5, 7])
        (Key_Derivation
          ⟨[mkClient ElGamal_Param_p ElGamal_Param_g k1,
            mkClient ElGamal_Param_p ElGamal_Param_g k2], [], 0⟩ [2, 3]).sk
      = modexp 15 31 73 := by
  have h := FE_correct (p := 73) (g := 15) (by norm_num) (by decide)
      ⟨[mkClient 73 15 k1, mkClient 73 15 k2], [], 0⟩ [2, 3] [5, 7] rnd rfl rfl ?_
  · have hip : innerSum [5, 7] [2, 3] = 31 := rfl
    rw [hip] at h
    exact h
  · intro c hc
    simp only [List.mem_cons, List.not_mem_nil, or_false] at hc
    rcases hc with rfl | rfl <;> rfl

/-- Claim C2 counterexample: with private keys `50`, `60` (sampled as
keygen randomness `50`, `60` at `p = 73`) and `y = [2, 3]`,
`Key_Derivation` stores `2·50 + 3·60 = 280`, which is neither in
`[0, 73)` nor equal to the mod-73 reduction `280 mod 73 = 61`. -/
theorem claim_C2_counterexample :
    (Key_Derivation ⟨[mkClient 73 15 50, mkClient 73 15 60], [], 0⟩ [2, 3]).sk = 280
    ∧ (Key_Derivation ⟨[mkClient 73 15 50, mkClient 73 15 60], [], 0⟩ [2, 3]).sk
        ≠ (2 * 50 + 3 * 60) % 73
    ∧ ¬ (Key_Derivation ⟨[mkClient 73 15 50, mkClient 73 15 60], [], 0⟩ [2, 3]).sk < 73 := by
  decide

theorem innerSum_eq_sum_range : ∀ (a b : List Nat), a.length = b.length →
    innerSum a b = ∑ i ∈ Finset.range a.length, a.getD i 0 * b.getD i 0 := by
  intro a
  induction a with
  | nil => intro b h; simp [innerSum]
  | cons v as ih =>
    intro b h
    cases b with
    | nil => simp at h
    | cons w bs =>
      rw [innerSum_cons, ih bs (by simpa using h), List.length_cons,
        Finset.sum_range_succ']
      simp only [List.getD_cons_succ, List.getD_cons_zero]
      exact (add_comm _ _)

/-- Claim C2 amended: `Key_Derivation` stores the exact integer value
`Σ y_i · x_i` over the scheme's private keys, with no reduction modulo
`p` (the stored value need not lie in `[0, p)`). -/
theorem claim_C2_amended (s : FE_inner_product_DDH) (vec : List Nat)
    (hlen : vec.length = s.clients.length) :
    (Key_Derivation s vec).sk
      = ∑ i ∈ Finset.range vec.length,
          vec.getD i 0 * ((s.clients.map ElGamal_Client.x).getD i 0) := by
  have hlen2 : vec.length = (s.clients.map ElGamal_Client.x).length := by
    rw [List.length_map]; exact hlen
  exact innerSum_eq_sum_range vec (s.clients.map ElGamal_Client.x) hlen2

/-- Witness for the amended C2 with two clients and `vec = [4, 5]`. -/
theorem claim_C2_witness :
    ([4, 5] : List Nat).length
        = ([mkClient 73 15 1, mkClient 73 15 2] : List ElGamal_Client).length
    ∧ (Key_Derivation ⟨[mkClient 73 15 1, mkClient 73 15 2], [], 0⟩ [4, 5]).sk
        = ∑ i ∈ Finset.range ([4, 5] : List Nat).length,
            ([4, 5] : List Nat).getD i 0
              * (([mkClient 73 15 1, mkClient 73 15 2].map ElGamal_Client.x).getD i 0) :=
  ⟨rfl, claim_C2_amended ⟨[mkClient 73 15 1, mkClient 73 15 2], [], 0⟩ [4, 5] rfl⟩

/-- Claim C6 counterexample: deriving a key for `y2 = [2]` after one for
`y1 = [1]` overwrites the scheme's stored derived secret key, and the
previously derived key no longer decrypts correctly afterwards — the
same ciphertext that decrypted to `g^⟨x,y1⟩ = 15` under the first
derivation decrypts to something else once the stored `y` has changed
(the member `Decrypt` reads the stored `y`, not the vector the supplied
key was derived for). -/
theorem claim_C6_counterexample :
    (Key_Derivation (Key_Derivation ⟨[mkClient 73 15 1], [], 0⟩ [1]) [2]).sk
        ≠ (Key_Derivation ⟨[mkClient 73 15 1], [], 0⟩ [1]).sk
    ∧ FE_Decrypt 73 (Key_Derivation ⟨[mkClient 73 15 1], [], 0⟩ [1])
        (FE_Encrypt 73 15 [mkClient 73 15 1] 0 [1])
        (Key_Derivation ⟨[mkClient 73 15 1], [], 0⟩ [1]).sk
      = modexp 15 (innerSum [1] [1]) 73
    ∧ FE_Decrypt 73 (Key_Derivation (Key_Derivation ⟨[mkClient 73 15 1], [], 0⟩ [1]) [2])
        (FE_Encrypt 73 15 [mkClient 73 15 1] 0 [1])
        (Key_Derivation ⟨[mkClient 73 15 1], [], 0⟩ [1]).sk
      ≠ modexp 15 (innerSum [1] [1]) 73 := by
  refine ⟨by decide, ?_, ?_⟩ <;>
    simp only [FE_Decrypt, FE_Encrypt, ElGamal_Decrypt, ElGamal_Encrypt, Key_Derivation,
      mkClient, Get_Commitment, innerSum, modexp, modinv_eval] <;>
    decide

/-- Claim C6 amended: `Key_Derivation` never writes the key pairs, and
the derived value is a pure function of the current private keys and the
supplied vector (re-deriving for `v1` after any other derivation yields
the same secret key); but each call overwrites the scheme's stored `y`
and stored derived key, so only the most recent derivation remains in
effect for the member `Decrypt`. -/
theorem claim_C6_amended (s : FE_inner_product_DDH) (v1 v2 : List Nat) :
    (Key_Derivation s v1).clients = s.clients
    ∧ Key_Derivation (Key_Derivation s v1) v2 = Key_Derivation s v2
    ∧ (Key_Derivation (Key_Derivation s v2) v1).sk = (Key_Derivation s v1).sk :=
  ⟨rfl, rfl, rfl⟩

/-- Claim C8: `FE_Encrypt` uses the single sampled commitment
`r = Get_Commitment p rnd` everywhere: the shared `c0` is
`modexp g r p`; component `i` of `c1` is
`(modexp h_i r p) * (modexp g x_i p) mod p` under the same `r`; and the
`c0` of the per-component primitive encryption equals the shared `c0`
(it is redundant and discarded). -/
theorem claim_C8 (p g rnd : Nat) (clients : List ElGamal_Client) (msg : List Nat)
    (i : Nat) (hlen : clients.length = msg.length) (hi : i < msg.length) :
    (FE_Encrypt p g clients rnd msg).c0 = modexp g (Get_Commitment p rnd) p
    ∧ (FE_Encrypt p g clients rnd msg).c1.getD i 0
        = modexp (clients.getD i ⟨0, 0⟩).h (Get_Commitment p rnd) p
            * modexp g (msg.getD i 0) p % p
    ∧ (ElGamal_Encrypt p g (modexp g (msg.getD i 0) p) (Get_Commitment p rnd)
          (clients.getD i ⟨0, 0⟩).h).c0
        = (FE_Encrypt p g clients rnd msg).c0 := by
  refine ⟨rfl, ?_, rfl⟩
  have hi2 : i < clients.length := by omega
  have hz : i < (List.zipWith
      (fun c m => (ElGamal_Encrypt p g (modexp g m p) (Get_Commitment p rnd) c.h).c1)
      clients msg).length := by
    rw [List.length_zipWith]
    omega
  show (List.zipWith
      (fun c m => (ElGamal_Encrypt p g (modexp g m p) (Get_Commitment p rnd) c.h).c1)
      clients msg).getD i 0 = _
  rw [List.getD_eq_getElem _ _ hz, List.getElem_zipWith,
    List.getD_eq_getElem _ _ hi2, List.getD_eq_getElem _ _ hi]
  rfl

/-- Witness for C8 at `p = 73`, `g = 15`, one client, `msg = [5]`, `i = 0`. -/
theorem claim_C8_witness :
    ([mkClient 73 15 3] : List ElGamal_Client).length = ([5] : List Nat).length
    ∧ 0 < ([5] : List Nat).length
    ∧ ((FE_Encrypt 73 15 [mkClient 73 15 3] 2 [5]).c0
          = modexp 15 (Get_Commitment 73 2) 73
       ∧ (FE_Encrypt 73 15 [mkClient 73 15 3] 2 [5]).c1.getD 0 0
          = modexp ([mkClient 73 15 3].getD 0 ⟨0, 0⟩).h (Get_Commitment 73 2) 73
              * modexp 15 (([5] : List Nat).getD 0 0) 73 % 73
       ∧ (ElGamal_Encrypt 73 15 (modexp 15 (([5] : List Nat).getD 0 0) 73)
            (Get_Commitment 73 2) ([mkClient 73 15 3].getD 0 ⟨0, 0⟩).h).c0
          = (FE_Encrypt 73 15 [mkClient 73 15 3] 2 [5]).c0) :=
  ⟨rfl, by decide, claim_C8 73 15 2 [mkClient 73 15 3] [5] 0 rfl (by decide)⟩
